import Mathlib

/-!
Verification development for a small HTTP save-file server (Rust, `src/main.rs`).

The server exposes three handlers plus a response filter:
* `serve_map` (`GET /map/<name>`): validates `name`, builds the glob pattern
  `<save_dir>/<name>*.sav`, enumerates matches, and serves the match with the
  greatest last-modified timestamp;
* `map_index` (`GET /map`): lists the distinct save names derived from the
  file names matching `<save_dir>/*.sav`;
* `all_options` (`OPTIONS /<any>`): empty 200 response;
* `CORS::on_response`: sets four fixed CORS headers on every response.

The filesystem is modelled as a snapshot: the save directory is a list of
`DirEntry` values (file name plus optional last-modified timestamp, `none`
standing for metadata that cannot be read).  The external `glob` crate is
modelled faithfully: pattern compilation follows `Pattern::new` (version 0.3),
matching follows `Pattern::matches` under the default `MatchOptions`
(case-sensitive, separators and leading dots not required to be literal), and
enumeration yields matching entries in alphabetical order of path, which the
crate documents ("Paths are yielded in alphabetical order").
-/

namespace SatMap

/-- A character specifier inside a glob range pattern `[...]`: either a single
character or an inclusive character range, as in the glob crate. -/
inductive CharSpecifier where
  | single (c : Char)
  | range (lo hi : Char)
deriving DecidableEq, Repr

/-- A compiled glob pattern token, mirroring `PatternToken` of the glob crate:
literal character, `?`, `*`, `**`, `[...]` and `[!...]`. -/
inductive GlobToken where
  | char (c : Char)
  | anyChar
  | anySeq
  | anyRecursive
  | anyWithin (specs : List CharSpecifier)
  | anyExcept (specs : List CharSpecifier)
deriving DecidableEq, Repr

/-- Parses the characters between the brackets of a glob range, mirroring
`parse_char_specifiers`: `a-b` (three characters with a middle dash) becomes a
range, any other character a single specifier. -/
def parseCharSpecifiers : List Char → List CharSpecifier
  | a :: '-' :: b :: rest => CharSpecifier.range a b :: parseCharSpecifiers rest
  | a :: rest => CharSpecifier.single a :: parseCharSpecifiers rest
  | [] => []

/-- Tests a character against range specifiers, mirroring `in_char_specifiers`
under the default case-sensitive matching options. -/
def inCharSpecifiers (specs : List CharSpecifier) (c : Char) : Bool :=
  specs.any fun s =>
    match s with
    | CharSpecifier.single a => c == a
    | CharSpecifier.range lo hi => lo ≤ c && c ≤ hi

/-- Compiles a glob pattern, mirroring `Pattern::new` of the glob crate:
`none` models a `PatternError` (more than two consecutive `*`, a recursive
wildcard `**` not forming a whole path component, or a malformed `[` range).
The second argument is the character preceding the current position (`none` at
the start of the pattern); the first argument is fuel, decremented once per
compiled token while at least one input character is consumed per token, so
fuel equal to the input length (as supplied by `patternNew`) always suffices.
Unlike the source library, consecutive valid `**` components are not collapsed
into one token; no pattern this program constructs compiles to `**` at all. -/
def pnAux : Nat → Option Char → List Char → Option (List GlobToken)
  | _, _, [] => some []
  | 0, _, _ :: _ => none
  | fuel + 1, _, '?' :: rest =>
      (pnAux fuel (some '?') rest).map (fun ts => GlobToken.anyChar :: ts)
  | _ + 1, _, '*' :: '*' :: '*' :: _ => none
  | fuel + 1, prev, '*' :: '*' :: rest =>
      if prev = none ∨ prev = some '/' then
        match rest with
        | [] => some [GlobToken.anyRecursive]
        | '/' :: rest2 =>
            (pnAux fuel (some '/') rest2).map (fun ts => GlobToken.anyRecursive :: ts)
        | _ => none
      else none
  | fuel + 1, _, '*' :: rest =>
      (pnAux fuel (some '*') rest).map (fun ts => GlobToken.anySeq :: ts)
  | fuel + 1, _, '[' :: '!' :: c2 :: c3 :: r3 =>
      (match List.findIdx? (fun c => c == ']') (c3 :: r3) with
       | some j =>
           (pnAux fuel (some ']') (List.drop (j + 1) (c3 :: r3))).map
             (fun ts =>
               GlobToken.anyExcept (parseCharSpecifiers (List.take (j + 1) (c2 :: c3 :: r3))) :: ts)
       | none => none)
  | _ + 1, _, '[' :: '!' :: _ => none
  | fuel + 1, _, '[' :: c1 :: c2 :: r2 =>
      (match List.findIdx? (fun c => c == ']') (c2 :: r2) with
       | some j =>
           (pnAux fuel (some ']') (List.drop (j + 1) (c2 :: r2))).map
             (fun ts =>
               GlobToken.anyWithin (parseCharSpecifiers (List.take (j + 1) (c1 :: c2 :: r2))) :: ts)
       | none => none)
  | _ + 1, _, '[' :: _ => none
  | fuel + 1, _, c :: rest =>
      (pnAux fuel (some c) rest).map (fun ts => GlobToken.char c :: ts)

/-- Compiles a glob pattern string, mirroring `Pattern::new`: `some tokens` on
success, `none` on a `PatternError`. -/
def patternNew (p : String) : Option (List GlobToken) :=
  pnAux p.toList.length none p.toList

/-- Helper for the `*` token: tries the continuation on every suffix of the
input (including the input itself and the empty suffix), mirroring the
`AnySequence` loop of `Pattern::matches_from` under default options. -/
def matchSeq (f : List Char → Bool) : List Char → Bool
  | [] => f []
  | c :: cs => f (c :: cs) || matchSeq f cs

/-- Helper for the `**` token: tries the continuation after every separator
character, mirroring the `AnyRecursiveSequence` loop of `matches_from` (the
continuation is attempted only right after a consumed `/`). -/
def anyRecAux (f : List Char → Bool) : List Char → Bool
  | [] => false
  | c :: cs => (c == '/' && f cs) || anyRecAux f cs

/-- Matches compiled tokens against a file name, mirroring
`Pattern::matches_from` under the default `MatchOptions` (case-sensitive;
`require_literal_separator` and `require_literal_leading_dot` are false). -/
def matchTokens : List GlobToken → List Char → Bool
  | [], cs => cs.isEmpty
  | GlobToken.char a :: ts, c :: cs => a == c && matchTokens ts cs
  | GlobToken.char _ :: _, [] => false
  | GlobToken.anyChar :: ts, _ :: cs => matchTokens ts cs
  | GlobToken.anyChar :: _, [] => false
  | GlobToken.anyWithin specs :: ts, c :: cs => inCharSpecifiers specs c && matchTokens ts cs
  | GlobToken.anyWithin _ :: _, [] => false
  | GlobToken.anyExcept specs :: ts, c :: cs => !inCharSpecifiers specs c && matchTokens ts cs
  | GlobToken.anyExcept _ :: _, [] => false
  | GlobToken.anySeq :: ts, cs => matchSeq (matchTokens ts) cs
  | GlobToken.anyRecursive :: ts, cs => matchTokens ts cs || anyRecAux (matchTokens ts) cs

/-- Compiles `<name>*.sav` (the file-name component of the pattern
`format!("{}/{}*.sav", config.save_dir, name)`) and matches it against a file
name; `false` when the pattern does not compile.  `glob` compiles the whole
pattern and then matches each directory entry's file name against the pattern's
file-name component; for a configured `save_dir` free of glob metacharacters
(any real directory path) compilation succeeds exactly when the component
`<name>*.sav` compiles. -/
def savMatch (name : String) (file : String) : Bool :=
  match patternNew (name ++ "*.sav") with
  | some ts => matchTokens ts file.toList
  | none => false

/-- A directory entry of the save directory: the file name (final path
component, always present and valid UTF-8 in this model, so `file_name()` and
`to_string_lossy()` are identities) and the last-modified timestamp from its
metadata, `none` when the metadata cannot be read (`path.metadata()` fails). -/
structure DirEntry where
  name : String
  modified : Option Nat
deriving DecidableEq, Repr

/-- Boolean lexicographic comparison of character lists, deciding the
lexicographic order on strings (Rust compares the candidate paths by bytes;
UTF-8 byte order and code-point order agree). -/
def charsLe : List Char → List Char → Bool
  | [], _ => true
  | _ :: _, [] => false
  | a :: as, b :: bs => if a < b then true else if a = b then charsLe as bs else false

theorem charsLe_iff_not_lex :
    ∀ xs ys : List Char, charsLe xs ys = true ↔ ¬ List.Lex (· < ·) ys xs
  | [], ys => iff_of_true rfl (List.Lex.not_nil_right _ _)
  | x :: xs, [] => iff_of_false (by simp [charsLe]) (fun h => h List.Lex.nil)
  | a :: as, b :: bs => by
      rcases lt_trichotomy a b with h | h | h
      · refine iff_of_true (by simp [charsLe, h]) ?_
        intro hl
        cases hl with
        | cons _ => exact lt_irrefl a h
        | rel h2 => exact lt_asymm h h2
      · subst h
        simp only [charsLe, lt_irrefl, if_false, if_pos rfl, List.Lex.cons_iff]
        exact charsLe_iff_not_lex as bs
      · refine iff_of_false ?_ (not_not_intro (List.Lex.rel h))
        simp [charsLe, not_lt_of_gt h, ne_of_gt h]

theorem charsLe_iff_le (a b : String) : charsLe a.toList b.toList = true ↔ a ≤ b := by
  rw [charsLe_iff_not_lex, String.le_iff_toList_le, ← not_lt]
  exact Iff.rfl

/-- Ordering of directory entries by file name.  All candidate paths share the
`<save_dir>/` prefix, so the alphabetical path order produced by the glob
crate's enumeration is the lexicographic order of file names. -/
def entLE (a b : DirEntry) : Prop := a.name ≤ b.name

instance : DecidableRel entLE := fun a b =>
  decidable_of_iff (charsLe a.name.toList b.name.toList = true) (charsLe_iff_le a.name b.name)

instance : IsTotal DirEntry entLE := ⟨fun a b => le_total a.name b.name⟩

instance : IsTrans DirEntry entLE := ⟨fun _ _ _ h1 h2 => le_trans h1 h2⟩

/-- Sorts directory entries into the alphabetical order in which the glob
crate yields matching paths. -/
def sortByName (l : List DirEntry) : List DirEntry := List.insertionSort entLE l

/-- Mirrors `Iterator::max_by_key` on a list: `none` on an empty iterator,
otherwise the element with the maximal key, the last such element winning on
ties (Rust: "If several elements are equally maximum, the last element is
returned"). -/
def maxByKey {α : Type} (key : α → Nat) : List α → Option α
  | [] => none
  | x :: xs => some (xs.foldl (fun acc y => if key y < key acc then acc else y) x)

/-- Mirrors `name.contains(['/', '\\', '.'])`: true when any character of the
name is a slash, backslash or dot. -/
def hasInvalidChar (name : String) : Bool :=
  name.toList.any fun c => c == '/' || c == '\\' || c == '.'

/-- The glob pattern string `format!("{}/{}*.sav", config.save_dir, name)`. -/
def mkPattern (saveDir name : String) : String :=
  saveDir ++ "/" ++ name ++ "*.sav"

/-- Outcome of `serve_map`: a successfully served file path, or one of the two
`MapError` responses (`NotFound` is HTTP 404, `BadRequest` is HTTP 400). -/
inductive ServeOutcome where
  | ok (path : String)
  | notFound (msg : String)
  | badRequest (msg : String)
deriving DecidableEq, Repr

/-- Mirrors the `serve_map` handler on a directory snapshot: reject names
containing `/`, `\` or `.`; reject (as `BadRequest`) patterns that do not
compile (the source formats the library's error into the message, modelled
here by the fixed prefix); otherwise enumerate matching entries in
alphabetical order, keep those whose metadata is readable together with their
modification times (`filter_map` with `metadata().ok()`), and take
`max_by_key` of the modification time.  A maximal entry is served by path
(`NamedFile::open` succeeds for a file present in the snapshot); an empty
candidate set yields `NotFound` with the pattern embedded in the message. -/
def serveMap (saveDir name : String) (dir : List DirEntry) : ServeOutcome :=
  if hasInvalidChar name then
    ServeOutcome.badRequest "Invalid characters in name"
  else if (patternNew (name ++ "*.sav")).isNone then
    ServeOutcome.badRequest "Invalid pattern"
  else
    match maxByKey (fun p => p.2)
        ((sortByName (dir.filter fun e => savMatch name e.name)).filterMap
          fun e => e.modified.map fun t => (e, t)) with
    | some (e, _) => ServeOutcome.ok (saveDir ++ "/" ++ e.name)
    | none =>
        ServeOutcome.notFound ("No matching files found for pattern: " ++ mkPattern saveDir name)

/-- Mirrors `file_name.to_string_lossy().split('_').next()`: the substring of
the file name before its first underscore, or the whole file name when it
contains no underscore (`split` always yields at least one piece). -/
def beforeUnderscore (s : String) : String :=
  String.mk (s.toList.takeWhile fun c => c != '_')

/-- Mirrors the save-name collection of the `map_index` handler: enumerate
`<save_dir>/*.sav` (the same pattern with an empty name), take each matched
file name's piece before the first underscore, and collect the pieces into a
set (`HashSet<String>`, modelled as a `Finset`). -/
def mapIndexNames (dir : List DirEntry) : Finset String :=
  ((sortByName (dir.filter fun e => savMatch "" e.name)).map
    fun e => beforeUnderscore e.name).toFinset

/-- Header-name comparison of Rocket's `HeaderMap`, which keys headers by
ASCII-case-insensitive (uncased) name: the names agree character by character
after lowering the case. -/
def headerNameEq (a b : String) : Bool :=
  a.toList.map Char.toLower == b.toList.map Char.toLower

/-- Mirrors `Response::set_header`: replaces every header with the given
(uncased) name by the single new value. -/
def setHeader (hs : List (String × String)) (n v : String) : List (String × String) :=
  (hs.filter fun p => !headerNameEq p.1 n) ++ [(n, v)]

/-- Looks a header up by (uncased) name. -/
def getHeader (hs : List (String × String)) (n : String) : Option String :=
  (hs.find? fun p => headerNameEq p.1 n).map fun p => p.2

/-- An outgoing HTTP response: status code and headers.  The body plays no
role in the CORS filter and is omitted. -/
structure HttpResponse where
  status : Nat
  headers : List (String × String)
deriving DecidableEq, Repr

/-- Mirrors `CORS::on_response`, which runs on every outgoing response
regardless of route, method or status and sets the four fixed CORS headers. -/
def corsOnResponse (r : HttpResponse) : HttpResponse :=
  HttpResponse.mk r.status
    (setHeader
      (setHeader
        (setHeader
          (setHeader r.headers
            "Access-Control-Allow-Origin" "https://satisfactory-calculator.com")
          "Access-Control-Allow-Methods" "POST, GET, PATCH, OPTIONS")
        "Access-Control-Allow-Headers" "*")
      "Access-Control-Allow-Credentials" "true")

/-- Mirrors the wildcard `all_options` handler (`#[options("/<_..>")]`), whose
empty body makes Rocket answer 200 with no headers of its own for any path. -/
def allOptionsResponse : HttpResponse := HttpResponse.mk 200 []

/-- The loaded configuration (`Config` in the source). -/
structure Config where
  base_url : String
  save_dir : String
  port : Nat
deriving DecidableEq, Repr

/-- Result of process startup: either the HTTP server is launched on the
configured port, or the process terminates with a non-zero exit status. -/
inductive StartupResult where
  | launched (port : Nat)
  | exitFailure
deriving DecidableEq, Repr

/-- Mirrors `main` up to the server launch.  `cfg` is the result of
`Config::load()` (`none` when neither config file loads) and `dirMeta` models
`fs::metadata` on a path: `none` when metadata cannot be read (in particular
when the path does not exist), `some b` when it can, with `b` its `is_dir()`.
A non-directory `save_dir` hits the explicit `std::process::exit(1)`; a
metadata error propagates with `?`.  Modelled from the spec: the `?` failure
path exits non-zero through the `rocket_anyhow` module, whose source file is
not part of the sources here; the spec states "Startup fails with a non-zero
exit if neither config source is readable, or if `save_dir` does not exist /
is not a directory." -/
def mainStartup (cfg : Option Config) (dirMeta : String → Option Bool) : StartupResult :=
  match cfg with
  | none => StartupResult.exitFailure
  | some c =>
    match dirMeta c.save_dir with
    | none => StartupResult.exitFailure
    | some false => StartupResult.exitFailure
    | some true => StartupResult.launched c.port

/-- Directory snapshot of the catalog example: two autosaves of `Foo` and an
underscore-free `Bar.sav`. -/
def fooBarDir : List DirEntry :=
  [DirEntry.mk "Foo_1.sav" (some 0), DirEntry.mk "Foo_2.sav" (some 1),
    DirEntry.mk "Bar.sav" (some 2)]

/-- Directory snapshot of the resolver example: two autosaves of `Noobville`,
modified at times 1 and 2. -/
def noobvilleDir : List DirEntry :=
  [DirEntry.mk "Noobville_autosave_0.sav" (some 1),
    DirEntry.mk "Noobville_autosave_1.sav" (some 2)]

/-- Directory snapshot with two save families, the later-modified one second. -/
def mixedDir : List DirEntry :=
  [DirEntry.mk "Alpha.sav" (some 10), DirEntry.mk "Beta_1.sav" (some 20)]

/-- Directory snapshot with two saves sharing the same modification time. -/
def tieDir : List DirEntry :=
  [DirEntry.mk "A_autosave.sav" (some 5), DirEntry.mk "B_autosave.sav" (some 5)]

/-! General lemmas about the model's building blocks. -/

theorem maxByKey_foldl_spec {α : Type} (key : α → Nat) :
    ∀ (l : List α) (acc : α),
      (l.foldl (fun a y => if key y < key a then a else y) acc) ∈ acc :: l ∧
      ∀ x ∈ acc :: l, key x ≤ key (l.foldl (fun a y => if key y < key a then a else y) acc)
  | [], acc => by simp
  | y :: l, acc => by
      have ih := maxByKey_foldl_spec key l (if key y < key acc then acc else y)
      simp only [List.foldl_cons]
      constructor
      · rcases List.mem_cons.mp ih.1 with h | h
        · rw [h]
          by_cases hc : key y < key acc <;> simp [hc]
        · exact List.mem_cons_of_mem _ (List.mem_cons_of_mem _ h)
      · intro x hx
        have hacc := ih.2 _ (List.mem_cons_self _ _)
        simp only [List.mem_cons] at hx
        rcases hx with hx | hx | hx
        · refine le_trans ?_ hacc
          rw [hx]
          by_cases hc : key y < key acc
          · rw [if_pos hc]
          · rw [if_neg hc]; exact le_of_not_lt hc
        · refine le_trans ?_ hacc
          rw [hx]
          by_cases hc : key y < key acc
          · rw [if_pos hc]; exact le_of_lt hc
          · rw [if_neg hc]
        · exact ih.2 _ (List.mem_cons_of_mem _ hx)

theorem maxByKey_spec {α : Type} (key : α → Nat) (l : List α) (r : α)
    (h : maxByKey key l = some r) : r ∈ l ∧ ∀ x ∈ l, key x ≤ key r := by
  match l with
  | [] => simp [maxByKey] at h
  | x :: xs =>
      simp only [maxByKey, Option.some.injEq] at h
      subst h
      exact maxByKey_foldl_spec key xs x

theorem maxByKey_cons_isSome {α : Type} (key : α → Nat) (x : α) (xs : List α) :
    (maxByKey key (x :: xs)).isSome = true := by
  simp [maxByKey]

/-- The fold underlying `max_by_key` keeps the later element on ties, so on a
list whose `nm` projections are strictly increasing it returns, among the
elements with maximal key, the one with the greatest `nm`. -/
theorem maxByKey_foldl_tie {α : Type} (key : α → Nat) (nm : α → String) :
    ∀ (l : List α) (acc : α),
      (acc :: l).Pairwise (fun a b => nm a < nm b) →
      ∀ x ∈ acc :: l,
        key x = key (l.foldl (fun a y => if key y < key a then a else y) acc) →
        nm x ≤ nm (l.foldl (fun a y => if key y < key a then a else y) acc)
  | [], acc => by
      intro _ x hx _
      rcases List.mem_cons.mp hx with rfl | hx
      · exact le_rfl
      · simp at hx
  | y :: l, acc => by
      intro hp x hx hk
      have hpacc : ∀ b ∈ y :: l, nm acc < nm b := fun b hb => List.rel_of_pairwise_cons hp hb
      have hptail : (y :: l).Pairwise (fun a b => nm a < nm b) := hp.of_cons
      have hpnext : ((if key y < key acc then acc else y) :: l).Pairwise
          (fun a b => nm a < nm b) := by
        refine List.pairwise_cons.mpr ⟨?_, hptail.of_cons⟩
        intro b hb
        by_cases hc : key y < key acc
        · simp only [if_pos hc]; exact hpacc b (List.mem_cons_of_mem _ hb)
        · simp only [if_neg hc]; exact List.rel_of_pairwise_cons hptail hb
      have ih := maxByKey_foldl_tie key nm l (if key y < key acc then acc else y) hpnext
      have ihmax := maxByKey_foldl_spec key l (if key y < key acc then acc else y)
      simp only [List.foldl_cons] at hk ⊢
      simp only [List.mem_cons] at hx
      have hheadle := ihmax.2 _ (List.mem_cons_self _ _)
      rcases hx with hx | hx | hx
      · by_cases hc : key y < key acc
        · have hm : x ∈ (if key y < key acc then acc else y) :: l := by
            rw [if_pos hc, hx]; exact List.mem_cons_self _ _
          exact ih x hm hk
        · have hy2 : (if key y < key acc then acc else y) = y := if_neg hc
          have h1 : key (l.foldl (fun a z => if key z < key a then a else z)
              (if key y < key acc then acc else y))
              ≤ key (if key y < key acc then acc else y) := by
            rw [← hk, hy2, hx]
            exact le_of_not_lt hc
          have hky := le_antisymm hheadle h1
          have hyr := ih _ (List.mem_cons_self _ _) hky
          refine le_trans (le_of_lt ?_) hyr
          rw [hy2, hx]
          exact hpacc y (List.mem_cons_self _ _)
      · by_cases hc : key y < key acc
        · have ha2 : (if key y < key acc then acc else y) = acc := if_pos hc
          have h3 : key y < key (l.foldl (fun a z => if key z < key a then a else z)
              (if key y < key acc then acc else y)) := by
            refine lt_of_lt_of_le ?_ hheadle
            rw [ha2]
            exact hc
          refine absurd h3 ?_
          rw [← hk, hx]
          exact lt_irrefl _
        · have hm : x ∈ (if key y < key acc then acc else y) :: l := by
            rw [if_neg hc, hx]; exact List.mem_cons_self _ _
          exact ih x hm hk
      · exact ih x (List.mem_cons_of_mem _ hx) hk

theorem entLE_total : ∀ a b : DirEntry, entLE a b ∨ entLE b a := fun a b =>
  le_total a.name b.name

theorem entLE_trans {a b c : DirEntry} (h1 : entLE a b) (h2 : entLE b c) : entLE a c :=
  le_trans h1 h2

/-- Inserting an element below every element of a list puts it at the head. -/
theorem orderedInsert_eq_cons (x : DirEntry) :
    ∀ t : List DirEntry, (∀ z ∈ t, entLE x z) → List.orderedInsert entLE x t = x :: t
  | [], _ => rfl
  | z :: t, h => by
      simp only [List.orderedInsert, if_pos (h z (List.mem_cons_self _ _))]

theorem filter_orderedInsert_pos (p : DirEntry → Bool) (x : DirEntry) (hp : p x = true) :
    ∀ s : List DirEntry, List.Sorted entLE s →
      (List.orderedInsert entLE x s).filter p = List.orderedInsert entLE x (s.filter p)
  | [], _ => by simp [hp]
  | y :: s, hs => by
      by_cases hxy : entLE x y
      · rw [List.orderedInsert, if_pos hxy]
        cases hpy : p y with
        | true =>
            rw [List.filter_cons_of_pos hp, List.filter_cons_of_pos hpy,
              List.orderedInsert, if_pos hxy]
        | false =>
            rw [List.filter_cons_of_pos hp, List.filter_cons_of_neg (by simp [hpy])]
            refine (orderedInsert_eq_cons x _ ?_).symm
            intro z hz
            have hz2 := (List.mem_filter.mp hz).1
            exact entLE_trans hxy (List.rel_of_sorted_cons hs z hz2)
      · rw [List.orderedInsert, if_neg hxy]
        cases hpy : p y with
        | true =>
            rw [List.filter_cons_of_pos hpy, List.filter_cons_of_pos hpy,
              List.orderedInsert, if_neg hxy,
              filter_orderedInsert_pos p x hp s hs.of_cons]
        | false =>
            rw [List.filter_cons_of_neg (by simp [hpy]),
              List.filter_cons_of_neg (by simp [hpy]),
              filter_orderedInsert_pos p x hp s hs.of_cons]

theorem filter_orderedInsert_neg (p : DirEntry → Bool) (x : DirEntry) (hp : p x = false) :
    ∀ s : List DirEntry, (List.orderedInsert entLE x s).filter p = s.filter p
  | [] => by simp [hp]
  | y :: s => by
      by_cases hxy : entLE x y
      · rw [List.orderedInsert, if_pos hxy, List.filter_cons_of_neg (by simp [hp])]
      · rw [List.orderedInsert, if_neg hxy]
        cases hpy : p y with
        | true =>
            rw [List.filter_cons_of_pos hpy, List.filter_cons_of_pos hpy,
              filter_orderedInsert_neg p x hp s]
        | false =>
            rw [List.filter_cons_of_neg (by simp [hpy]),
              List.filter_cons_of_neg (by simp [hpy]),
              filter_orderedInsert_neg p x hp s]

/-- The stable sort by name commutes with filtering. -/
theorem sortByName_filter (p : DirEntry → Bool) :
    ∀ l : List DirEntry, sortByName (l.filter p) = (sortByName l).filter p
  | [] => rfl
  | x :: l => by
      cases hp : p x with
      | true =>
          rw [List.filter_cons_of_pos hp]
          show List.orderedInsert entLE x (List.insertionSort entLE (l.filter p)) = _
          rw [show List.insertionSort entLE (l.filter p) = sortByName (l.filter p) from rfl,
            sortByName_filter p l]
          rw [show sortByName (x :: l) = List.orderedInsert entLE x (sortByName l) from rfl]
          exact (filter_orderedInsert_pos p x hp (sortByName l)
            (List.sorted_insertionSort entLE l)).symm
      | false =>
          rw [List.filter_cons_of_neg (by simp [hp])]
          rw [sortByName_filter p l]
          rw [show sortByName (x :: l) = List.orderedInsert entLE x (sortByName l) from rfl]
          exact (filter_orderedInsert_neg p x hp (sortByName l)).symm

theorem mem_sortByName {x : DirEntry} {l : List DirEntry} : x ∈ sortByName l ↔ x ∈ l :=
  (List.perm_insertionSort entLE l).mem_iff

theorem sortByName_sorted (l : List DirEntry) : List.Sorted entLE (sortByName l) :=
  List.sorted_insertionSort entLE l

/-- Entries whose image under a partial function is `none` can be dropped
before `filterMap`, mirroring how `filter_map` skips unreadable metadata. -/
theorem filterMap_filter_isSome {α β : Type} (f : α → Option β) :
    ∀ l : List α, (l.filter fun a => (f a).isSome).filterMap f = l.filterMap f
  | [] => rfl
  | a :: l => by
      cases hf : f a with
      | none =>
          rw [List.filter_cons_of_neg (by simp [hf]), List.filterMap_cons, hf,
            filterMap_filter_isSome f l]
      | some b =>
          rw [List.filter_cons_of_pos (by simp [hf]), List.filterMap_cons, hf,
            List.filterMap_cons, hf, filterMap_filter_isSome f l]

theorem headerNameEq_comm (a b : String) : headerNameEq a b = headerNameEq b a := by
  simp only [headerNameEq]
  cases h : List.map Char.toLower a.toList == List.map Char.toLower b.toList with
  | true => exact (beq_iff_eq.mpr (beq_iff_eq.mp h).symm).symm
  | false =>
      cases h2 : List.map Char.toLower b.toList == List.map Char.toLower a.toList with
      | true =>
          have hcontra := beq_iff_eq.mpr (beq_iff_eq.mp h2).symm
          rw [h] at hcontra
          exact Bool.noConfusion hcontra
      | false => rfl

theorem headerNameEq_trans {a b c : String} (h1 : headerNameEq a b = true)
    (h2 : headerNameEq b c = true) : headerNameEq a c = true := by
  simp only [headerNameEq, beq_iff_eq] at *
  exact h1.trans h2

theorem getHeader_cons_pos (p : String × String) (hs : List (String × String)) (m : String)
    (h : headerNameEq p.1 m = true) : getHeader (p :: hs) m = some p.2 := by
  unfold getHeader
  rw [@List.find?_cons_of_pos (String × String) (fun q => headerNameEq q.1 m) p hs h]
  rfl

theorem getHeader_cons_neg (p : String × String) (hs : List (String × String)) (m : String)
    (h : headerNameEq p.1 m = false) : getHeader (p :: hs) m = getHeader hs m := by
  unfold getHeader
  rw [@List.find?_cons_of_neg (String × String) (fun q => headerNameEq q.1 m) p hs
    (by simp [h])]

theorem setHeader_cons_drop (p : String × String) (hs : List (String × String)) (n v : String)
    (h : headerNameEq p.1 n = true) : setHeader (p :: hs) n v = setHeader hs n v := by
  simp [setHeader, List.filter_cons, h]

theorem setHeader_cons_keep (p : String × String) (hs : List (String × String)) (n v : String)
    (h : headerNameEq p.1 n = false) : setHeader (p :: hs) n v = p :: setHeader hs n v := by
  simp [setHeader, List.filter_cons, h]

theorem getHeader_setHeader_same (hs : List (String × String)) (n v m : String)
    (h : headerNameEq m n = true) : getHeader (setHeader hs n v) m = some v := by
  induction hs with
  | nil =>
      have hnm : headerNameEq n m = true := by rw [headerNameEq_comm]; exact h
      rw [show setHeader [] n v = [(n, v)] from rfl, getHeader_cons_pos _ _ _ hnm]
  | cons p hs ih =>
      cases hq : headerNameEq p.1 n with
      | true => rw [setHeader_cons_drop _ _ _ _ hq]; exact ih
      | false =>
          have hpm : headerNameEq p.1 m = false := by
            cases hpm : headerNameEq p.1 m with
            | false => rfl
            | true => exact absurd (headerNameEq_trans hpm h) (by simp [hq])
          rw [setHeader_cons_keep _ _ _ _ hq, getHeader_cons_neg _ _ _ hpm]
          exact ih

theorem getHeader_setHeader_other (hs : List (String × String)) (n v m : String)
    (h : headerNameEq m n = false) : getHeader (setHeader hs n v) m = getHeader hs m := by
  induction hs with
  | nil =>
      have hnm : headerNameEq n m = false := by rw [headerNameEq_comm]; exact h
      rw [show setHeader [] n v = [(n, v)] from rfl, getHeader_cons_neg _ _ _ hnm]
  | cons p hs ih =>
      cases hq : headerNameEq p.1 n with
      | true =>
          have hpm : headerNameEq p.1 m = false := by
            cases hpm : headerNameEq p.1 m with
            | false => rfl
            | true =>
                have hmp : headerNameEq m p.1 = true := by rw [headerNameEq_comm]; exact hpm
                exact absurd (headerNameEq_trans hmp hq) (by simp [h])
          rw [setHeader_cons_drop _ _ _ _ hq, ih, getHeader_cons_neg _ _ _ hpm]
      | false =>
          rw [setHeader_cons_keep _ _ _ _ hq]
          cases hpm : headerNameEq p.1 m with
          | true => rw [getHeader_cons_pos _ _ _ hpm, getHeader_cons_pos _ _ _ hpm]
          | false =>
              rw [getHeader_cons_neg _ _ _ hpm, getHeader_cons_neg _ _ _ hpm]
              exact ih

/-! Characterization of the patterns the program constructs. -/

theorem matchSeq_eq_true_iff (f : List Char → Bool) :
    ∀ cs, matchSeq f cs = true ↔ ∃ s, List.IsSuffix s cs ∧ f s = true
  | [] => by
      constructor
      · intro h
        exact ⟨[], List.suffix_refl _, h⟩
      · rintro ⟨s, hs, hfs⟩
        rw [List.suffix_nil.mp hs] at hfs
        exact hfs
  | c :: cs => by
      simp only [matchSeq, Bool.or_eq_true]
      rw [matchSeq_eq_true_iff f cs]
      constructor
      · rintro (h | ⟨s, hs, hfs⟩)
        · exact ⟨c :: cs, List.suffix_refl _, h⟩
        · exact ⟨s, hs.trans (List.suffix_cons c cs), hfs⟩
      · rintro ⟨s, hs, hfs⟩
        rcases List.suffix_cons_iff.mp hs with h | h
        · subst h
          exact Or.inl hfs
        · exact Or.inr ⟨s, h, hfs⟩

theorem matchTokens_chars :
    ∀ (l cs : List Char), matchTokens (l.map GlobToken.char) cs = true ↔ cs = l
  | [], [] => by simp [matchTokens]
  | [], _ :: _ => by simp [matchTokens, List.isEmpty]
  | _ :: _, [] => by simp [matchTokens]
  | a :: l, c :: cs => by
      simp only [List.map_cons, matchTokens, Bool.and_eq_true, beq_iff_eq,
        List.cons.injEq]
      rw [matchTokens_chars l cs]
      constructor
      · rintro ⟨h1, h2⟩; exact ⟨h1.symm, h2⟩
      · rintro ⟨h1, h2⟩; exact ⟨h1.symm, h2⟩

/-- The file-name pattern for the empty name is `*.sav`, which matches exactly
the file names ending in `.sav`. -/
theorem savMatch_empty_iff (f : String) :
    savMatch "" f = true ↔
      List.IsSuffix ('.' :: 's' :: 'a' :: 'v' :: []) f.toList := by
  have hpat : patternNew ("" ++ "*.sav") =
      some (GlobToken.anySeq :: (['.', 's', 'a', 'v'].map GlobToken.char)) := rfl
  unfold savMatch
  rw [hpat]
  show matchSeq (matchTokens (['.', 's', 'a', 'v'].map GlobToken.char)) f.toList = true ↔ _
  rw [matchSeq_eq_true_iff]
  constructor
  · rintro ⟨s, hs, hfs⟩
    rwa [(matchTokens_chars _ s).mp hfs] at hs
  · intro h
    exact ⟨_, h, (matchTokens_chars _ _).mpr rfl⟩

theorem patternNew_isSome_of_savMatch {name f : String} (h : savMatch name f = true) :
    (patternNew (name ++ "*.sav")).isNone = false := by
  unfold savMatch at h
  cases hp : patternNew (name ++ "*.sav") with
  | some ts => simp [hp]
  | none => rw [hp] at h; simp at h

/-! Behaviour of the resolver on a directory snapshot. -/

/-- Membership in the candidate list built by `serve_map`: exactly the
directory entries that match the pattern and have readable metadata, paired
with their modification time. -/
theorem mem_candidates_iff (name : String) (dir : List DirEntry) (e : DirEntry) (t : Nat) :
    ((e, t) ∈ (sortByName (dir.filter fun e2 => savMatch name e2.name)).filterMap
        (fun e2 => e2.modified.map fun t2 => (e2, t2))) ↔
      e ∈ dir ∧ savMatch name e.name = true ∧ e.modified = some t := by
  rw [List.mem_filterMap]
  constructor
  · rintro ⟨a, ha, hfa⟩
    rcases Option.map_eq_some'.mp hfa with ⟨t2, ht2, heq⟩
    injection heq with h1 h2
    subst h1
    subst h2
    have hb := List.mem_filter.mp (mem_sortByName.mp ha)
    exact ⟨hb.1, hb.2, ht2⟩
  · rintro ⟨hmem, hmatch, hmod⟩
    refine ⟨e, mem_sortByName.mpr (List.mem_filter.mpr ⟨hmem, hmatch⟩), ?_⟩
    rw [hmod]
    rfl

theorem serveMap_eq_ok (saveDir name : String) (dir : List DirEntry)
    (hclean : hasInvalidChar name = false)
    (hpat : (patternNew (name ++ "*.sav")).isNone = false)
    {e : DirEntry} {t : Nat}
    (hmax : maxByKey (fun p : DirEntry × Nat => p.2)
        ((sortByName (dir.filter fun e2 => savMatch name e2.name)).filterMap
          fun e2 => e2.modified.map fun t2 => (e2, t2)) = some (e, t)) :
    serveMap saveDir name dir = ServeOutcome.ok (saveDir ++ "/" ++ e.name) := by
  unfold serveMap
  rw [if_neg (by simp [hclean]), if_neg (by simp [hpat]), hmax]

/-- Shared success shape of the resolver: when the name is clean and some
matching entry is readable, `serve_map` serves a matching readable entry of
maximal modification time. -/
theorem serveMap_success_spec (saveDir name : String) (dir : List DirEntry)
    (hclean : hasInvalidChar name = false)
    (hex : dir.any (fun e => savMatch name e.name && e.modified.isSome) = true) :
    ∃ e t, e ∈ dir ∧ savMatch name e.name = true ∧ e.modified = some t ∧
      serveMap saveDir name dir = ServeOutcome.ok (saveDir ++ "/" ++ e.name) ∧
      ∀ e2 ∈ dir, savMatch name e2.name = true → ∀ t2, e2.modified = some t2 → t2 ≤ t := by
  obtain ⟨e0, he0, hp0⟩ := List.any_eq_true.mp hex
  rw [Bool.and_eq_true] at hp0
  obtain ⟨t0, ht0⟩ := Option.isSome_iff_exists.mp hp0.2
  have hpat := patternNew_isSome_of_savMatch hp0.1
  have hmem0 : (e0, t0) ∈ (sortByName (dir.filter fun e2 => savMatch name e2.name)).filterMap
      (fun e2 => e2.modified.map fun t2 => (e2, t2)) :=
    (mem_candidates_iff name dir e0 t0).mpr ⟨he0, hp0.1, ht0⟩
  obtain ⟨r, hr⟩ : ∃ r, maxByKey (fun p : DirEntry × Nat => p.2)
      ((sortByName (dir.filter fun e2 => savMatch name e2.name)).filterMap
        (fun e2 => e2.modified.map fun t2 => (e2, t2))) = some r := by
    cases hL : (sortByName (dir.filter fun e2 => savMatch name e2.name)).filterMap
        (fun e2 => e2.modified.map fun t2 => (e2, t2)) with
    | nil => rw [hL] at hmem0; simp at hmem0
    | cons x xs => exact ⟨_, rfl⟩
  have hspec := maxByKey_spec _ _ _ hr
  have hrmem := (mem_candidates_iff name dir r.1 r.2).mp (by
    have := hspec.1
    rwa [show ((r.1, r.2) : DirEntry × Nat) = r from rfl])
  refine ⟨r.1, r.2, hrmem.1, hrmem.2.1, hrmem.2.2, ?_, ?_⟩
  · exact serveMap_eq_ok saveDir name dir hclean hpat (by rw [← hr])
  · intro e2 he2 hm2 t2 hmod2
    exact hspec.2 (e2, t2) ((mem_candidates_iff name dir e2 t2).mpr ⟨he2, hm2, hmod2⟩)

theorem serveMap_eq_notFound (saveDir name : String) (dir : List DirEntry)
    (hclean : hasInvalidChar name = false)
    (hpat : (patternNew (name ++ "*.sav")).isNone = false)
    (hnil : (sortByName (dir.filter fun e2 => savMatch name e2.name)).filterMap
        (fun e2 => e2.modified.map fun t2 => (e2, t2)) = []) :
    serveMap saveDir name dir = ServeOutcome.notFound
      ("No matching files found for pattern: " ++ mkPattern saveDir name) := by
  unfold serveMap
  rw [if_neg (by simp [hclean]), if_neg (by simp [hpat]), hnil]
  rfl

/-- Dropping the entries with unreadable metadata from the snapshot does not
change the candidate list: `filter_map` already skips them, and the stable
sort commutes with the restriction. -/
theorem candidates_skip_unreadable (name : String) (dir : List DirEntry) :
    (sortByName ((dir.filter fun e => e.modified.isSome).filter
        fun e2 => savMatch name e2.name)).filterMap
      (fun e2 => e2.modified.map fun t2 => (e2, t2)) =
    (sortByName (dir.filter fun e2 => savMatch name e2.name)).filterMap
      (fun e2 => e2.modified.map fun t2 => (e2, t2)) := by
  have h1 : (dir.filter fun e => e.modified.isSome).filter (fun e2 => savMatch name e2.name)
      = (dir.filter fun e2 => savMatch name e2.name).filter (fun e => e.modified.isSome) := by
    rw [List.filter_filter, List.filter_filter]
    exact List.filter_congr fun x _ => Bool.and_comm _ _
  rw [h1, sortByName_filter]
  rw [← filterMap_filter_isSome (fun e2 => e2.modified.map fun t2 => (e2, t2))
    (sortByName (dir.filter fun e2 => savMatch name e2.name))]
  congr 1
  exact List.filter_congr fun x _ => by cases h : x.modified <;> simp [h]

/-- With pairwise-distinct file names, the candidate list is strictly
increasing in name (the glob enumeration is sorted and file names of distinct
directory entries differ). -/
theorem candidates_pairwise_names (name : String) (dir : List DirEntry)
    (hnodup : (dir.map DirEntry.name).Nodup) :
    ((sortByName (dir.filter fun e2 => savMatch name e2.name)).filterMap
      (fun e2 => e2.modified.map fun t2 => (e2, t2))).Pairwise
      (fun x y : DirEntry × Nat => x.1.name < y.1.name) := by
  have hsub : (dir.filter fun e2 => savMatch name e2.name).Sublist dir :=
    List.filter_sublist dir
  have h1 : ((dir.filter fun e2 => savMatch name e2.name).map DirEntry.name).Nodup :=
    List.Nodup.sublist (hsub.map DirEntry.name) hnodup
  have hperm := List.perm_insertionSort entLE (dir.filter fun e2 => savMatch name e2.name)
  have h2 : ((sortByName (dir.filter fun e2 => savMatch name e2.name)).map
      DirEntry.name).Nodup := ((hperm.map DirEntry.name).nodup_iff).mpr h1
  have hne : (sortByName (dir.filter fun e2 => savMatch name e2.name)).Pairwise
      (fun a b => a.name ≠ b.name) := List.pairwise_map.mp h2
  have hsorted := sortByName_sorted (dir.filter fun e2 => savMatch name e2.name)
  have hlt : (sortByName (dir.filter fun e2 => savMatch name e2.name)).Pairwise
      (fun a b => a.name < b.name) :=
    (hsorted.and hne).imp fun h => lt_of_le_of_ne h.1 h.2
  refine List.Pairwise.filterMap _ ?_ hlt
  intro a a2 hab b hb b2 hb2
  rw [Option.mem_def] at hb hb2
  rcases Option.map_eq_some'.mp hb with ⟨t1, _, hbe⟩
  rcases Option.map_eq_some'.mp hb2 with ⟨t2, _, hbe2⟩
  subst hbe
  subst hbe2
  exact hab

/-- Combined specification of `max_by_key` on a nonempty list with strictly
increasing names: the result is a maximal-key element, and among the elements
tied at the maximal key it carries the greatest name. -/
theorem maxByKey_spec_tie {α : Type} (key : α → Nat) (nm : α → String) (l : List α)
    (hne : l ≠ []) (hpw : l.Pairwise fun a b => nm a < nm b) :
    ∃ r, maxByKey key l = some r ∧ r ∈ l ∧ (∀ q ∈ l, key q ≤ key r) ∧
      ∀ q ∈ l, key q = key r → nm q ≤ nm r := by
  cases l with
  | nil => exact absurd rfl hne
  | cons x xs =>
      exact ⟨xs.foldl (fun acc y => if key y < key acc then acc else y) x, rfl,
        (maxByKey_foldl_spec key xs x).1,
        (maxByKey_foldl_spec key xs x).2,
        maxByKey_foldl_tie key nm xs x hpw⟩

theorem corsOnResponse_headers (r : HttpResponse) :
    (corsOnResponse r).headers =
      setHeader (setHeader (setHeader (setHeader r.headers
        "Access-Control-Allow-Origin" "https://satisfactory-calculator.com")
        "Access-Control-Allow-Methods" "POST, GET, PATCH, OPTIONS")
        "Access-Control-Allow-Headers" "*")
        "Access-Control-Allow-Credentials" "true" := rfl

theorem corsOnResponse_status (r : HttpResponse) : (corsOnResponse r).status = r.status := rfl

/-! Claim theorems. -/

/-- C1 (counterexample): on the directory Foo_1.sav, Foo_2.sav, Bar.sav the
catalog builder does not yield the claimed set containing the name "Bar": for a file
name with no underscore it keeps the whole file name, extension included, so
the set is actually the one containing "Foo" and "Bar.sav". -/
theorem mapIndexNames_counterexample :
    mapIndexNames fooBarDir ≠ {"Foo", "Bar"} ∧
    mapIndexNames fooBarDir = {"Foo", "Bar.sav"} :=
  ⟨by decide, by decide⟩

/-- C1 (amended): the catalog builder derives one entry per matched `.sav`
file by taking the substring of the file name before its first underscore;
for a file name with no underscore the entire file name is used, extension
included; the entries are collected into a set, and on Foo_1.sav, Foo_2.sav
and Bar.sav the resulting set holds exactly "Foo" and "Bar.sav". -/
theorem mapIndexNames_spec :
    (∀ (dir : List DirEntry) (s : String),
      s ∈ mapIndexNames dir ↔
        ∃ e ∈ dir, savMatch "" e.name = true ∧ s = beforeUnderscore e.name) ∧
    (∀ s : String, ('_' ∈ s.toList → False) → beforeUnderscore s = s) ∧
    mapIndexNames fooBarDir = {"Foo", "Bar.sav"} := by
  refine ⟨?_, ?_, by decide⟩
  · intro dir s
    unfold mapIndexNames
    rw [List.mem_toFinset, List.mem_map]
    constructor
    · rintro ⟨e, he, heq⟩
      have hb := List.mem_filter.mp (mem_sortByName.mp he)
      exact ⟨e, hb.1, hb.2, heq.symm⟩
    · rintro ⟨e, he, hm, heq⟩
      exact ⟨e, mem_sortByName.mpr (List.mem_filter.mpr ⟨he, hm⟩), heq.symm⟩
  · intro s hs
    unfold beforeUnderscore
    have hall : ∀ x ∈ s.toList, (x != '_') = true := by
      intro c hc
      simp only [bne_iff_ne, ne_eq]
      intro hceq
      exact hs (hceq ▸ hc)
    rw [List.takeWhile_eq_self_iff.mpr hall]
    rfl

theorem mapIndexNames_spec_witness :
    ("Bar.sav" ∈ mapIndexNames [DirEntry.mk "Bar.sav" (some 2)] ↔
      ∃ e ∈ [DirEntry.mk "Bar.sav" (some 2)], savMatch "" e.name = true ∧
        "Bar.sav" = beforeUnderscore e.name) ∧
    beforeUnderscore "Bar" = "Bar" :=
  ⟨mapIndexNames_spec.1 [DirEntry.mk "Bar.sav" (some 2)] "Bar.sav",
    mapIndexNames_spec.2.1 "Bar" (by decide)⟩

/-- C2: matched entries whose metadata cannot be read are silently skipped:
resolution over a snapshot equals resolution over its restriction to the
entries with readable metadata, for every name and directory state, so an
unreadable entry never fails or aborts the resolver and the result is
computed over the remaining readable candidates only. -/
theorem serveMap_skips_unreadable (saveDir name : String) (dir : List DirEntry) :
    serveMap saveDir name dir =
      serveMap saveDir name (dir.filter fun e => e.modified.isSome) := by
  by_cases h1 : hasInvalidChar name = true
  · unfold serveMap
    rw [if_pos h1, if_pos h1]
  · by_cases h2 : (patternNew (name ++ "*.sav")).isNone = true
    · unfold serveMap
      rw [if_neg h1, if_neg h1, if_pos h2, if_pos h2]
    · unfold serveMap
      rw [if_neg h1, if_neg h1, if_neg h2, if_neg h2]
      rw [candidates_skip_unreadable]

/-- C4: a name containing '/', '\' or '.' is rejected with the
invalid-characters BadRequest, with a result independent of the directory
contents (validation precedes any enumeration); a name free of those
characters is never rejected with that validation error — it proceeds to
pattern construction and enumeration, whose only BadRequest is the
pattern-compilation error carrying a different message. -/
theorem serveMap_validation (saveDir name : String) (dir dir2 : List DirEntry) :
    (hasInvalidChar name = true →
      serveMap saveDir name dir = ServeOutcome.badRequest "Invalid characters in name" ∧
      serveMap saveDir name dir = serveMap saveDir name dir2) ∧
    (hasInvalidChar name = false →
      serveMap saveDir name dir ≠ ServeOutcome.badRequest "Invalid characters in name") := by
  constructor
  · intro h
    constructor
    · unfold serveMap
      rw [if_pos h]
    · unfold serveMap
      rw [if_pos h, if_pos h]
  · intro h hbad
    have h1 : ¬ hasInvalidChar name = true := by
      intro hh
      rw [h] at hh
      exact Bool.noConfusion hh
    unfold serveMap at hbad
    rw [if_neg h1] at hbad
    by_cases h2 : (patternNew (name ++ "*.sav")).isNone = true
    · rw [if_pos h2] at hbad
      have hmsg : ("Invalid pattern" : String) = "Invalid characters in name" := by
        injection hbad
      exact absurd hmsg (by decide)
    · rw [if_neg h2] at hbad
      cases hm : maxByKey (fun p : DirEntry × Nat => p.2)
          ((sortByName (dir.filter fun e2 => savMatch name e2.name)).filterMap
            (fun e2 => e2.modified.map fun t2 => (e2, t2))) with
      | none =>
          rw [hm] at hbad
          exact ServeOutcome.noConfusion hbad
      | some r =>
          obtain ⟨re, rt⟩ := r
          rw [hm] at hbad
          exact ServeOutcome.noConfusion hbad

theorem serveMap_validation_witness :
    (serveMap "saves" "../etc" [] = ServeOutcome.badRequest "Invalid characters in name" ∧
      serveMap "saves" "../etc" [] = serveMap "saves" "../etc" noobvilleDir) ∧
    serveMap "saves" "Noobville" [] ≠ ServeOutcome.badRequest "Invalid characters in name" :=
  ⟨(serveMap_validation "saves" "../etc" [] noobvilleDir).1 (by decide),
    (serveMap_validation "saves" "Noobville" [] []).2 (by decide)⟩

/-- C5 (counterexample): the NotFound message of the code starts with a
capital "No matching files found for pattern: ", not the claimed lowercase
"no matching files found for pattern: "; at save_dir "saves", name "Foo" and
an empty directory the claimed message therefore differs from the actual
one. -/
theorem serveMap_notFound_message_counterexample :
    serveMap "saves" "Foo" [] ≠
      ServeOutcome.notFound ("no matching files found for pattern: "
        ++ mkPattern "saves" "Foo") ∧
    serveMap "saves" "Foo" [] =
      ServeOutcome.notFound ("No matching files found for pattern: "
        ++ mkPattern "saves" "Foo") :=
  ⟨by decide, by decide⟩

/-- C5 (amended): for every name that passes validation and compiles as a
glob pattern, and every directory where no file matches `<name>*.sav`,
resolution returns NotFound with the message "No matching files found for
pattern: " followed by the literal constructed pattern `<dir>/<name>*.sav`. -/
theorem serveMap_notFound_spec (saveDir name : String) (dir : List DirEntry)
    (hclean : hasInvalidChar name = false)
    (hpat : (patternNew (name ++ "*.sav")).isNone = false)
    (hnone : dir.all (fun e => !savMatch name e.name) = true) :
    serveMap saveDir name dir = ServeOutcome.notFound
      ("No matching files found for pattern: " ++ mkPattern saveDir name) := by
  have hfil : dir.filter (fun e2 => savMatch name e2.name) = [] := by
    rw [List.filter_eq_nil_iff]
    intro e he
    have h := List.all_eq_true.mp hnone e he
    rw [Bool.not_eq_true'] at h
    simp [h]
  refine serveMap_eq_notFound saveDir name dir hclean hpat ?_
  rw [hfil]
  rfl

theorem serveMap_notFound_spec_witness :
    serveMap "saves" "Foo" [DirEntry.mk "Bar.sav" (some 3)] = ServeOutcome.notFound
      ("No matching files found for pattern: " ++ mkPattern "saves" "Foo") :=
  serveMap_notFound_spec "saves" "Foo" [DirEntry.mk "Bar.sav" (some 3)]
    (by decide) (by decide) (by decide)

/-- C7: resolution is a deterministic, read-only function of the name, the
configured directory and the filesystem snapshot: in this pure model of the
handler (which performs no writes), two successive invocations against equal
snapshots — no intervening filesystem change — return the same resolved path
on success (hence byte-identical bodies) or the same error. -/
theorem serveMap_deterministic (saveDir name : String) (d1 d2 : List DirEntry)
    (h : d1 = d2) : serveMap saveDir name d1 = serveMap saveDir name d2 := by
  rw [h]

theorem serveMap_deterministic_witness :
    serveMap "saves" "Noobville" noobvilleDir = serveMap "saves" "Noobville" noobvilleDir :=
  serveMap_deterministic "saves" "Noobville" noobvilleDir noobvilleDir rfl

/-- C8: when the configured save directory's metadata cannot be read (in
particular when it does not exist) or it is not a directory, startup ends in
a non-zero exit and no HTTP server is launched. -/
theorem startup_fails_on_bad_save_dir (cfg : Option Config) (c : Config)
    (dirMeta : String → Option Bool) (hc : cfg = some c)
    (hbad : dirMeta c.save_dir = none ∨ dirMeta c.save_dir = some false) :
    mainStartup cfg dirMeta = StartupResult.exitFailure ∧
    ∀ p, mainStartup cfg dirMeta ≠ StartupResult.launched p := by
  subst hc
  rcases hbad with h | h
  · refine ⟨by simp [mainStartup, h], ?_⟩
    intro p
    simp [mainStartup, h]
  · refine ⟨by simp [mainStartup, h], ?_⟩
    intro p
    simp [mainStartup, h]

theorem startup_fails_witness :
    mainStartup (some (Config.mk "http://localhost" "saves" 7778)) (fun _ => none) =
      StartupResult.exitFailure ∧
    ∀ p, mainStartup (some (Config.mk "http://localhost" "saves" 7778)) (fun _ => none) ≠
      StartupResult.launched p :=
  startup_fails_on_bad_save_dir _ _ _ rfl (Or.inl rfl)

/-- C3: with a name that passes validation, at least one file matching
`<name>*.sav` and readable metadata on every match, the resolver serves the
path of a matching file whose last-modified timestamp is maximal among all
matches. -/
theorem serveMap_latest (saveDir name : String) (dir : List DirEntry)
    (hclean : hasInvalidChar name = false)
    (hex : dir.any (fun e => savMatch name e.name) = true)
    (hall : dir.all (fun e => !savMatch name e.name || e.modified.isSome) = true) :
    ∃ e t, e ∈ dir ∧ savMatch name e.name = true ∧ e.modified = some t ∧
      serveMap saveDir name dir = ServeOutcome.ok (saveDir ++ "/" ++ e.name) ∧
      ∀ e2 ∈ dir, savMatch name e2.name = true →
        ∃ t2, e2.modified = some t2 ∧ t2 ≤ t := by
  have hex2 : dir.any (fun e => savMatch name e.name && e.modified.isSome) = true := by
    obtain ⟨e0, he0, hm0⟩ := List.any_eq_true.mp hex
    refine List.any_eq_true.mpr ⟨e0, he0, ?_⟩
    have h := List.all_eq_true.mp hall e0 he0
    rw [Bool.or_eq_true, Bool.not_eq_true'] at h
    rw [Bool.and_eq_true]
    rcases h with h | h
    · rw [hm0] at h
      exact absurd h (by simp)
    · exact ⟨hm0, h⟩
  obtain ⟨e, t, hmem, hm, hmod, hok, hmax⟩ := serveMap_success_spec saveDir name dir hclean hex2
  refine ⟨e, t, hmem, hm, hmod, hok, ?_⟩
  intro e2 he2 hm2
  have h := List.all_eq_true.mp hall e2 he2
  rw [Bool.or_eq_true, Bool.not_eq_true'] at h
  rcases h with h | h
  · rw [hm2] at h
    exact absurd h (by simp)
  · obtain ⟨t2, ht2⟩ := Option.isSome_iff_exists.mp h
    exact ⟨t2, ht2, hmax e2 he2 hm2 t2 ht2⟩

theorem serveMap_latest_witness :
    serveMap "saves" "Noobville" noobvilleDir =
      ServeOutcome.ok "saves/Noobville_autosave_1.sav" ∧
    (∃ e t, e ∈ noobvilleDir ∧ savMatch "Noobville" e.name = true ∧ e.modified = some t ∧
      serveMap "saves" "Noobville" noobvilleDir = ServeOutcome.ok ("saves" ++ "/" ++ e.name) ∧
      ∀ e2 ∈ noobvilleDir, savMatch "Noobville" e2.name = true →
        ∃ t2, e2.modified = some t2 ∧ t2 ≤ t) :=
  ⟨by decide,
    serveMap_latest "saves" "Noobville" noobvilleDir (by decide) (by decide) (by decide)⟩

/-- C6: after the CORS filter runs on any response — every route, method and
status code, error responses and the OPTIONS preflight response included —
the response carries exactly the four fixed CORS header values, any
pre-existing values of those four headers being overwritten, while the status
and the headers with any other name are untouched. -/
theorem cors_on_response_spec (r : HttpResponse) :
    getHeader (corsOnResponse r).headers "Access-Control-Allow-Origin"
        = some "https://satisfactory-calculator.com" ∧
    getHeader (corsOnResponse r).headers "Access-Control-Allow-Methods"
        = some "POST, GET, PATCH, OPTIONS" ∧
    getHeader (corsOnResponse r).headers "Access-Control-Allow-Headers" = some "*" ∧
    getHeader (corsOnResponse r).headers "Access-Control-Allow-Credentials" = some "true" ∧
    (corsOnResponse r).status = r.status ∧
    ∀ n : String, headerNameEq n "Access-Control-Allow-Origin" = false →
      headerNameEq n "Access-Control-Allow-Methods" = false →
      headerNameEq n "Access-Control-Allow-Headers" = false →
      headerNameEq n "Access-Control-Allow-Credentials" = false →
      getHeader (corsOnResponse r).headers n = getHeader r.headers n := by
  refine ⟨?_, ?_, ?_, ?_, corsOnResponse_status r, ?_⟩
  · rw [corsOnResponse_headers,
      getHeader_setHeader_other _ _ _ _ (by decide),
      getHeader_setHeader_other _ _ _ _ (by decide),
      getHeader_setHeader_other _ _ _ _ (by decide),
      getHeader_setHeader_same _ _ _ _ (by decide)]
  · rw [corsOnResponse_headers,
      getHeader_setHeader_other _ _ _ _ (by decide),
      getHeader_setHeader_other _ _ _ _ (by decide),
      getHeader_setHeader_same _ _ _ _ (by decide)]
  · rw [corsOnResponse_headers,
      getHeader_setHeader_other _ _ _ _ (by decide),
      getHeader_setHeader_same _ _ _ _ (by decide)]
  · rw [corsOnResponse_headers, getHeader_setHeader_same _ _ _ _ (by decide)]
  · intro n h1 h2 h3 h4
    rw [corsOnResponse_headers,
      getHeader_setHeader_other _ _ _ _ h4,
      getHeader_setHeader_other _ _ _ _ h3,
      getHeader_setHeader_other _ _ _ _ h2,
      getHeader_setHeader_other _ _ _ _ h1]

theorem cors_on_response_witness :
    getHeader (corsOnResponse allOptionsResponse).headers "Access-Control-Allow-Origin"
        = some "https://satisfactory-calculator.com" ∧
    (corsOnResponse allOptionsResponse).status = allOptionsResponse.status ∧
    getHeader (corsOnResponse allOptionsResponse).headers "Content-Type"
        = getHeader allOptionsResponse.headers "Content-Type" :=
  ⟨(cors_on_response_spec allOptionsResponse).1,
    (cors_on_response_spec allOptionsResponse).2.2.2.2.1,
    (cors_on_response_spec allOptionsResponse).2.2.2.2.2 "Content-Type"
      (by decide) (by decide) (by decide) (by decide)⟩

/-- C9: the empty name contains none of the rejected characters, so it passes
validation; its pattern `<dir>/*.sav` matches exactly the file names ending
in ".sav"; and whenever the directory holds at least one readable save file,
resolution returns the most recently modified save file of any name instead
of rejecting the request. -/
theorem serveMap_empty_name (saveDir : String) (dir : List DirEntry)
    (hex : dir.any (fun e => savMatch "" e.name && e.modified.isSome) = true) :
    hasInvalidChar "" = false ∧
    (∀ f : String, savMatch "" f = true ↔
      List.IsSuffix ('.' :: 's' :: 'a' :: 'v' :: []) f.toList) ∧
    ∃ e t, e ∈ dir ∧ savMatch "" e.name = true ∧ e.modified = some t ∧
      serveMap saveDir "" dir = ServeOutcome.ok (saveDir ++ "/" ++ e.name) ∧
      ∀ e2 ∈ dir, savMatch "" e2.name = true → ∀ t2, e2.modified = some t2 → t2 ≤ t :=
  ⟨rfl, savMatch_empty_iff, serveMap_success_spec saveDir "" dir rfl hex⟩

theorem serveMap_empty_name_witness :
    serveMap "saves" "" mixedDir = ServeOutcome.ok "saves/Beta_1.sav" ∧
    (hasInvalidChar "" = false ∧
      (∀ f : String, savMatch "" f = true ↔
        List.IsSuffix ('.' :: 's' :: 'a' :: 'v' :: []) f.toList) ∧
      ∃ e t, e ∈ mixedDir ∧ savMatch "" e.name = true ∧ e.modified = some t ∧
        serveMap "saves" "" mixedDir = ServeOutcome.ok ("saves" ++ "/" ++ e.name) ∧
        ∀ e2 ∈ mixedDir, savMatch "" e2.name = true → ∀ t2, e2.modified = some t2 → t2 ≤ t) :=
  ⟨by decide, serveMap_empty_name "saves" mixedDir (by decide)⟩

/-- C10: when the file names in the snapshot are pairwise distinct, the
resolver's choice is deterministic even on timestamp ties: the glob
enumeration is sorted by name and the `max_by_key` fold keeps the later
element on equal keys, so the served entry has maximal timestamp and, among
the entries tied at that timestamp, the lexicographically greatest name. -/
theorem serveMap_tie_break (saveDir name : String) (dir : List DirEntry)
    (hnodup : (dir.map DirEntry.name).Nodup)
    (hclean : hasInvalidChar name = false)
    (hex : dir.any (fun e => savMatch name e.name && e.modified.isSome) = true) :
    ∃ e t, e ∈ dir ∧ savMatch name e.name = true ∧ e.modified = some t ∧
      serveMap saveDir name dir = ServeOutcome.ok (saveDir ++ "/" ++ e.name) ∧
      ∀ e2 ∈ dir, savMatch name e2.name = true → ∀ t2, e2.modified = some t2 →
        t2 ≤ t ∧ (t2 = t → e2.name ≤ e.name) := by
  obtain ⟨e0, he0, hp0⟩ := List.any_eq_true.mp hex
  rw [Bool.and_eq_true] at hp0
  obtain ⟨t0, ht0⟩ := Option.isSome_iff_exists.mp hp0.2
  have hpat := patternNew_isSome_of_savMatch hp0.1
  have hpw := candidates_pairwise_names name dir hnodup
  have hmem0 := (mem_candidates_iff name dir e0 t0).mpr ⟨he0, hp0.1, ht0⟩
  obtain ⟨r, hr, hrm, hrmax, hrtie⟩ := maxByKey_spec_tie (fun p : DirEntry × Nat => p.2)
    (fun p : DirEntry × Nat => p.1.name)
    ((sortByName (dir.filter fun e2 => savMatch name e2.name)).filterMap
      (fun e2 => e2.modified.map fun t2 => (e2, t2)))
    (List.ne_nil_of_mem hmem0) hpw
  have hback := (mem_candidates_iff name dir r.1 r.2).mp hrm
  refine ⟨r.1, r.2, hback.1, hback.2.1, hback.2.2,
    serveMap_eq_ok saveDir name dir hclean hpat (by rw [← hr]), ?_⟩
  intro e2 he2 hm2 t2 hmod2
  have hq := (mem_candidates_iff name dir e2 t2).mpr ⟨he2, hm2, hmod2⟩
  exact ⟨hrmax (e2, t2) hq, fun ht => hrtie (e2, t2) hq ht⟩

theorem serveMap_tie_break_witness :
    serveMap "saves" "" tieDir = ServeOutcome.ok "saves/B_autosave.sav" ∧
    (∃ e t, e ∈ tieDir ∧ savMatch "" e.name = true ∧ e.modified = some t ∧
      serveMap "saves" "" tieDir = ServeOutcome.ok ("saves" ++ "/" ++ e.name) ∧
      ∀ e2 ∈ tieDir, savMatch "" e2.name = true → ∀ t2, e2.modified = some t2 →
        t2 ≤ t ∧ (t2 = t → e2.name ≤ e.name)) :=
  ⟨by decide, serveMap_tie_break "saves" "" tieDir (by decide) (by decide) (by decide)⟩

end SatMap
